import Mathlib

/-!
Verification development for the enzyme-inhibition analysis core
(`src/Enzyme_Inhibition_app.py`).

The numeric core of the program is `process_kinetics_data` (lines 56-72):
it masks out zero-concentration rows, takes element-wise reciprocals,
runs `scipy.stats.linregress`, and derives `Vmax = 1/intercept` and
`Km = slope * Vmax`.  The caller (lines 96-102) processes the
uninhibited and inhibited columns and displays results only when both
succeeded; lines 121-125 compute the shared x-axis domain of the plot.

Modelling conventions:
* Real (float) quantities are idealised as exact rationals `ℚ` plus the
  IEEE special values, captured by the inductive type `FV` below
  (`fin q`, `pinf` = positive infinity, `ninf` = negative infinity,
  `nan`).  Rounding is idealised away; the IEEE rules for the special
  values (division by zero, `inf - inf`, `nan` propagation, ...) are
  modelled exactly, with the simplification that a zero is always the
  positive zero `+0` (the program never produces a negative zero on the
  paths modelled here).
* Raw samples entering the pipeline are finite numbers, so they are plain
  rationals; special values can only arise from the reciprocal transform
  and the regression arithmetic, so those operate on `FV`.
* `scipy.stats.linregress` is embedded from its source: it raises
  `ValueError` on empty input, raises when all x values are identical and
  there is more than one point, and otherwise computes
  `slope = ssxym / ssxm`, `intercept = ymean - slope * xmean`, where
  `ssxm`/`ssxym` are the mean-centered second moments (`np.cov` with
  `bias=1`).  The x inputs of every call in this program are the finite
  reciprocals `1/S`, so the x argument stays rational while the y
  argument is `FV`-valued.  Diagnostics (r-value, p-value, standard
  error) are display-only pass-through in the program and are not
  modelled.
* The Python `try/except` around the body returns `None` after posting a
  UI error message; this is modelled by `Option` (and, for the state
  claims, an explicit `UIState` of posted messages).
-/

/-- An idealised IEEE floating-point value: an exact finite rational, a
signed infinity, or `nan`.  Zero is identified with `+0`. -/
inductive FV where
  | fin (q : ℚ)
  | pinf
  | ninf
  | nan
deriving DecidableEq, Repr

namespace FV

/-- IEEE negation. -/
def neg : FV → FV
  | fin q => fin (-q)
  | pinf => ninf
  | ninf => pinf
  | nan => nan

/-- IEEE addition: `nan` propagates, opposite infinities give `nan`,
an infinity absorbs finite values. -/
def add : FV → FV → FV
  | nan, _ => nan
  | _, nan => nan
  | pinf, ninf => nan
  | ninf, pinf => nan
  | pinf, _ => pinf
  | _, pinf => pinf
  | ninf, _ => ninf
  | _, ninf => ninf
  | fin a, fin b => fin (a + b)

/-- IEEE subtraction, as addition of the negation. -/
def sub (a b : FV) : FV := add a (neg b)

/-- IEEE multiplication: `nan` propagates, zero times infinity is `nan`,
otherwise infinities follow the sign rule. -/
def mul : FV → FV → FV
  | nan, _ => nan
  | _, nan => nan
  | fin a, fin b => fin (a * b)
  | fin a, pinf => if a = 0 then nan else if 0 < a then pinf else ninf
  | fin a, ninf => if a = 0 then nan else if 0 < a then ninf else pinf
  | pinf, fin b => if b = 0 then nan else if 0 < b then pinf else ninf
  | ninf, fin b => if b = 0 then nan else if 0 < b then ninf else pinf
  | pinf, pinf => pinf
  | pinf, ninf => ninf
  | ninf, pinf => ninf
  | ninf, ninf => pinf

/-- IEEE division with zero identified with `+0`: a nonzero finite
number divided by zero gives a signed infinity, `0/0`, `inf/inf` give
`nan`, a finite number divided by an infinity gives zero. -/
def div : FV → FV → FV
  | nan, _ => nan
  | _, nan => nan
  | fin a, fin b =>
      if b = 0 then (if a = 0 then nan else if 0 < a then pinf else ninf)
      else fin (a / b)
  | fin _, pinf => fin 0
  | fin _, ninf => fin 0
  | pinf, fin b => if 0 ≤ b then pinf else ninf
  | ninf, fin b => if 0 ≤ b then ninf else pinf
  | pinf, pinf => nan
  | pinf, ninf => nan
  | ninf, pinf => nan
  | ninf, ninf => nan

/-- Sum of a list of IEEE values. -/
def sum (l : List FV) : FV := l.foldr add (fin 0)

@[simp] theorem add_fin_fin (a b : ℚ) : add (fin a) (fin b) = fin (a + b) := rfl

@[simp] theorem mul_fin_fin (a b : ℚ) : mul (fin a) (fin b) = fin (a * b) := rfl

@[simp] theorem sub_fin_fin (a b : ℚ) : sub (fin a) (fin b) = fin (a - b) := by
  simp [sub, add, neg, sub_eq_add_neg]

theorem div_fin_fin (a b : ℚ) (hb : b ≠ 0) : div (fin a) (fin b) = fin (a / b) := by
  simp [div, hb]

@[simp] theorem sum_nil : sum [] = fin 0 := rfl

@[simp] theorem sum_cons (a : FV) (l : List FV) : sum (a :: l) = add a (sum l) := rfl

/-- Summing the embedding of a rational list gives the embedded rational sum. -/
theorem sum_map_fin (l : List ℚ) : sum (l.map fin) = fin l.sum := by
  induction l with
  | nil => rfl
  | cons a t ih => simp [ih]

end FV

/-! ## The Sample Filter and the reciprocal transform

Lines 61-63 of the source build the mask `S != 0` and apply it to both
series; since the same mask is applied to `S` and `v`, this is filtering
of the paired sequence.  Lines 65 take the element-wise reciprocals. -/

/-- Sample Filter (lines 61-63): keep exactly the pairs whose
concentration is nonzero. -/
def sampleFilter (samples : List (ℚ × ℚ)) : List (ℚ × ℚ) :=
  samples.filter (fun p => decide (p.1 ≠ 0))

/-- Reciprocal concentrations `inv_S = 1 / S` (line 65).  All retained
concentrations are nonzero, so these stay finite rationals. -/
def reciprocalsS (kept : List (ℚ × ℚ)) : List ℚ :=
  kept.map (fun p => 1 / p.1)

/-- Reciprocal velocities `inv_v = 1 / v` (line 65), as IEEE values:
a zero velocity is not guarded, so its reciprocal is an infinity. -/
def reciprocalsV (kept : List (ℚ × ℚ)) : List FV :=
  kept.map (fun p => FV.div (FV.fin 1) (FV.fin p.2))

/-! ## scipy.stats.linregress -/

/-- Whether every element of the list equals its head (the
`np.amax(x) == np.amin(x)` test of `linregress`, for nonempty lists). -/
def allEqHead : List ℚ → Bool
  | [] => true
  | a :: xs => xs.all (fun b => decide (a = b))

/-- Arithmetic mean of a rational list (`np.mean`). -/
def meanQ (xs : List ℚ) : ℚ := xs.sum / xs.length

/-- Mean-centered second moment of x (`ssxm` in `linregress`, the
`np.cov(x, y, bias=1)` entry): mean of the squared deviations. -/
def ssxmQ (xs : List ℚ) : ℚ :=
  ((xs.map (fun xi => (xi - meanQ xs) ^ 2)).sum) / xs.length

/-- Embedding of `scipy.stats.linregress(x, y)` restricted to the fields
the program uses (`slope`, `intercept`).  The x argument is rational (in
this program it is always the finite list `inv_S`); the y argument may
carry IEEE special values.  The two `ValueError` conditions of the scipy
source are the `Except.error` branches. -/
def linregress (x : List ℚ) (y : List FV) : Except String (FV × FV) :=
  if x.length = 0 ∨ y.length = 0 then
    Except.error "Inputs must not be empty."
  else if 1 < x.length ∧ allEqHead x = true then
    Except.error "Cannot calculate a linear regression if all x values are identical"
  else
    let ymean := FV.div (FV.sum y) (FV.fin (x.length : ℚ))
    let ssxym := FV.div
      (FV.sum (List.zipWith
        (fun xi yi => FV.mul (FV.fin (xi - meanQ x)) (FV.sub yi ymean)) x y))
      (FV.fin (x.length : ℚ))
    let slope := FV.div ssxym (FV.fin (ssxmQ x))
    let intercept := FV.sub ymean (FV.mul slope (FV.fin (meanQ x)))
    Except.ok (slope, intercept)

/-! ## process_kinetics_data -/

/-- The tuple returned by `process_kinetics_data` on success
(line 69): `(inv_S, inv_v, Vmax, Km, regression)`, with the regression
carried as its slope and intercept. -/
structure FitResult where
  inv_S : List ℚ
  inv_v : List FV
  Vmax : FV
  Km : FV
  slope : FV
  intercept : FV
deriving DecidableEq, Repr

/-- Embedding of `process_kinetics_data` (lines 56-72): filter the
zero-concentration rows, transform to reciprocals, regress, and derive
`Vmax = 1 / intercept`, `Km = slope * Vmax`.  The `try/except` that
catches the scipy `ValueError` and returns `None` is the `none` branch. -/
def process_kinetics_data (samples : List (ℚ × ℚ)) : Option FitResult :=
  match linregress (reciprocalsS (sampleFilter samples))
      (reciprocalsV (sampleFilter samples)) with
  | Except.error _ => none
  | Except.ok (slope, intercept) =>
      some ⟨reciprocalsS (sampleFilter samples), reciprocalsV (sampleFilter samples),
            FV.div (FV.fin 1) intercept,
            FV.mul slope (FV.div (FV.fin 1) intercept),
            slope, intercept⟩

/-! ## The caller: aggregation gate and the plot domain -/

/-- Aggregation gate of the main analysis (lines 100-102): the results
section runs only under `if processed_un and processed_in`, i.e. only
when both columns produced a fit. -/
def display_results (processed_un processed_in : Option FitResult) :
    Option (FitResult × FitResult) :=
  match processed_un, processed_in with
  | some a, some b => some (a, b)
  | _, _ => none

/-- The full analysis run (lines 96-102): each velocity column of the
pasted table is processed independently against the shared
concentration column, then the aggregation gate is applied. -/
def analysis_run (rows : List (ℚ × ℚ × ℚ)) : Option (FitResult × FitResult) :=
  display_results
    (process_kinetics_data (rows.map (fun r => (r.1, r.2.1))))
    (process_kinetics_data (rows.map (fun r => (r.1, r.2.2))))

/-- x-intercept of a fit line, `x_int = -1 / Km` (lines 121-122). -/
def x_int (Km : ℚ) : ℚ := -1 / Km

/-- Python `max` over a nonempty list. -/
def pyMax : List ℚ → Option ℚ
  | [] => none
  | a :: xs => some (xs.foldl max a)

/-- Shared x-axis domain of the comparative plot (lines 121-124):
`min_x = min(0, x_int_un, x_int_in) * 1.1` and
`max_x = max(max(inv_S_un), max(inv_S_in)) * 1.1`.  Python `max` on an
empty sequence raises, hence the `Option`. -/
def x_domain (Km_un Km_in : ℚ) (inv_S_un inv_S_in : List ℚ) :
    Option (ℚ × ℚ) :=
  match pyMax inv_S_un, pyMax inv_S_in with
  | some a, some b =>
      some (min (min 0 (x_int Km_un)) (x_int Km_in) * (11 / 10),
            max a b * (11 / 10))
  | _, _ => none

/-! ## UI state threading (for the determinism claim)

The only effect of `process_kinetics_data` besides its return value is
`st.error(...)` on the exception path (line 71), which appends a message
to the page; the computation reads no state. -/

/-- The caller-visible UI state: the list of posted error messages. -/
structure UIState where
  messages : List String
deriving DecidableEq, Repr

/-- State-threaded form of `process_kinetics_data`: on failure a message
is posted (line 71); the returned value never depends on the incoming
state. -/
def process_kinetics_data_st (samples : List (ℚ × ℚ)) (st : UIState) :
    Option FitResult × UIState :=
  match process_kinetics_data samples with
  | some r => (some r, st)
  | none => (none, ⟨st.messages ++ ["Error processing"]⟩)

/-! ## Helper lemmas about the pipeline -/

/-- Inversion of a successful `process_kinetics_data` call: the returned
fields are exactly the ones built at lines 65-69. -/
theorem process_some_fields (samples : List (ℚ × ℚ)) (r : FitResult)
    (h : process_kinetics_data samples = some r) :
    r.Vmax = FV.div (FV.fin 1) r.intercept ∧
    r.Km = FV.mul r.slope r.Vmax ∧
    r.inv_S = reciprocalsS (sampleFilter samples) ∧
    r.inv_v = reciprocalsV (sampleFilter samples) ∧
    linregress (reciprocalsS (sampleFilter samples))
        (reciprocalsV (sampleFilter samples)) = Except.ok (r.slope, r.intercept) := by
  unfold process_kinetics_data at h
  cases hr : linregress (reciprocalsS (sampleFilter samples))
      (reciprocalsV (sampleFilter samples)) with
  | error e => rw [hr] at h; simp at h
  | ok p =>
      obtain ⟨s, b⟩ := p
      rw [hr] at h
      simp only [Option.some.injEq] at h
      subst h
      simp [hr]

/-- When neither error guard of `linregress` fires, it returns a pair. -/
theorem linregress_ok_of (x : List ℚ) (y : List FV)
    (h1 : ¬(x.length = 0 ∨ y.length = 0))
    (h2 : ¬(1 < x.length ∧ allEqHead x = true)) :
    ∃ s b, linregress x y = Except.ok (s, b) := by
  unfold linregress
  rw [if_neg h1, if_neg h2]
  exact ⟨_, _, rfl⟩

/-- A successful `linregress` call implies neither error guard fired. -/
theorem linregress_ok_inv (x : List ℚ) (y : List FV) (p : FV × FV)
    (h : linregress x y = Except.ok p) :
    x.length ≠ 0 ∧ y.length ≠ 0 ∧ ¬(1 < x.length ∧ allEqHead x = true) := by
  unfold linregress at h
  by_cases h1 : x.length = 0 ∨ y.length = 0
  · rw [if_pos h1] at h; simp at h
  · by_cases h2 : 1 < x.length ∧ allEqHead x = true
    · rw [if_neg h1, if_pos h2] at h; simp at h
    · exact ⟨fun hx => h1 (Or.inl hx), fun hy => h1 (Or.inr hy), h2⟩

/-- The identical-x test holds exactly when the list is constant. -/
theorem allEqHead_true_iff (x : List ℚ) :
    allEqHead x = true ↔ ∀ a ∈ x, ∀ b ∈ x, a = b := by
  cases x with
  | nil => simp [allEqHead]
  | cons h t =>
      simp only [allEqHead, List.all_eq_true, decide_eq_true_eq]
      constructor
      · intro H a ha b hb
        have ea : a = h := by
          rcases List.mem_cons.mp ha with rfl | ha
          · rfl
          · exact (H a ha).symm
        have eb : b = h := by
          rcases List.mem_cons.mp hb with rfl | hb
          · rfl
          · exact (H b hb).symm
        rw [ea, eb]
      · intro H b hb
        exact H h (List.mem_cons_self h t) b (List.mem_cons.mpr (Or.inr hb))

/-- The seed of a max fold is a lower bound of the result, and the result
bounds every list element. -/
theorem foldl_max_le (xs : List ℚ) (a : ℚ) :
    a ≤ xs.foldl max a ∧ ∀ q ∈ xs, q ≤ xs.foldl max a := by
  induction xs generalizing a with
  | nil => exact ⟨le_refl a, by simp⟩
  | cons b t ih =>
      simp only [List.foldl_cons]
      refine ⟨le_trans (le_max_left a b) (ih (max a b)).1, ?_⟩
      intro q hq
      rcases List.mem_cons.mp hq with rfl | hq
      · exact le_trans (le_max_right a q) (ih (max a q)).1
      · exact (ih (max a b)).2 q hq

/-- A max fold returns its seed or one of the list elements. -/
theorem foldl_max_mem (xs : List ℚ) (a : ℚ) :
    xs.foldl max a = a ∨ xs.foldl max a ∈ xs := by
  induction xs generalizing a with
  | nil => exact Or.inl rfl
  | cons b t ih =>
      simp only [List.foldl_cons]
      rcases ih (max a b) with h | h
      · rcases max_choice a b with hm | hm
        · exact Or.inl (h.trans hm)
        · exact Or.inr (List.mem_cons.mpr (Or.inl (h.trans hm)))
      · exact Or.inr (List.mem_cons.mpr (Or.inr h))

/-- Specification of the Python `max` of a nonempty list. -/
theorem pyMax_spec (xs : List ℚ) (M : ℚ) (h : pyMax xs = some M) :
    M ∈ xs ∧ ∀ q ∈ xs, q ≤ M := by
  cases xs with
  | nil => simp [pyMax] at h
  | cons a t =>
      simp only [pyMax, Option.some.injEq] at h
      subst h
      constructor
      · rcases foldl_max_mem t a with h | h
        · rw [h]; exact List.mem_cons_self a t
        · exact List.mem_cons.mpr (Or.inr h)
      · intro q hq
        rcases List.mem_cons.mp hq with rfl | hq
        · exact (foldl_max_le t q).1
        · exact (foldl_max_le t a).2 q hq

/-! ## Concrete fit results used as witnesses -/

/-- The fit of the samples `[(1, 1), (2, 2)]` (reciprocal points `(1, 1)`
and `(1/2, 1/2)`): an exact line through the origin, so the intercept is
zero and `Vmax` is infinite. -/
def rThroughOrigin : FitResult :=
  ⟨[1, 1/2], [FV.fin 1, FV.fin (1/2)], FV.pinf, FV.pinf, FV.fin 1, FV.fin 0⟩

/-- The fit of the samples `[(1, 1), (1/2, 1/2)]` (reciprocal points
`(1, 1)` and `(2, 2)`): again an exact line through the origin. -/
def rDegenerate : FitResult :=
  ⟨[1, 2], [FV.fin 1, FV.fin 2], FV.pinf, FV.pinf, FV.fin 1, FV.fin 0⟩

/-- The fit of the samples `[(-1, 2), (1, 3)]`, which retain a negative
concentration. -/
def rNeg : FitResult :=
  ⟨[-1, 1], [FV.fin (1/2), FV.fin (1/3)], FV.fin (12/5), FV.fin (-1/5),
   FV.fin (-1/12), FV.fin (5/12)⟩

/-! ## The claims -/

/-- C2: the Sample Filter returns exactly the subsequence of pairs whose
concentration is nonzero: it is a sublist of the input (so order and the
pairing of each velocity with its own concentration are preserved), its
members are exactly the input pairs with nonzero concentration, and it is
the largest such sublist.  The embedding is a pure function, so the input
itself is not modified. -/
theorem c2_sample_filter (l : List (ℚ × ℚ)) :
    List.Sublist (sampleFilter l) l ∧
    (∀ p : ℚ × ℚ, p ∈ sampleFilter l ↔ p ∈ l ∧ p.1 ≠ 0) ∧
    (∀ t : List (ℚ × ℚ), List.Sublist t l → (∀ p ∈ t, p.1 ≠ 0) →
      List.Sublist t (sampleFilter l)) := by
  refine ⟨List.filter_sublist l, ?_, ?_⟩
  · intro p
    simp [sampleFilter, List.mem_filter]
  · intro t ht hall
    have hself : t.filter (fun p => decide (p.1 ≠ 0)) = t := by
      rw [List.filter_eq_self]
      intro p hp
      simpa using hall p hp
    exact hself ▸ ht.filter (fun p => decide (p.1 ≠ 0))

/-- Witness for C2 at a concrete input: the pair with zero concentration
is dropped and the rest is kept in order. -/
theorem c2_sample_filter_witness :
    List.Sublist [((2:ℚ), (3:ℚ))] (sampleFilter [((0:ℚ), (1:ℚ)), (2, 3)]) ∧
    ((2:ℚ), (3:ℚ)) ∈ sampleFilter [((0:ℚ), (1:ℚ)), (2, 3)] := by
  constructor
  · exact (c2_sample_filter [((0:ℚ), (1:ℚ)), (2, 3)]).2.2 [(2, 3)]
      (List.Sublist.cons ((0:ℚ), (1:ℚ)) (List.Sublist.refl [(2, 3)])) (by decide)
  · exact ((c2_sample_filter [((0:ℚ), (1:ℚ)), (2, 3)]).2.1 (2, 3)).mpr (by decide)

/-- Counterexample to C5: the uninhibited column fits successfully
(producing `rThroughOrigin`), yet when the inhibited column fails the
aggregation gate of lines 100-102 reports nothing at all, so the
successful fit is not reported. -/
theorem c5_counterexample :
    process_kinetics_data [((1:ℚ), (1:ℚ)), (2, 2)] = some rThroughOrigin ∧
    display_results (some rThroughOrigin) none = none := by
  constructor
  · simp only [process_kinetics_data, linregress, sampleFilter, reciprocalsS,
      reciprocalsV, meanQ, ssxmQ, allEqHead, rThroughOrigin, List.filter_cons,
      List.filter_nil, List.map_cons, List.map_nil, List.length_cons,
      List.length_nil, List.sum_cons, List.sum_nil, List.all_cons, List.all_nil,
      List.zipWith_cons_cons, List.zipWith_nil_left, List.zipWith_nil_right,
      FV.sum_cons, FV.sum_nil]
    norm_num [FV.div, FV.add, FV.sub, FV.mul, FV.neg]
  · rfl

/-- C5 as amended: the two sample sets are processed independently, but
the results section runs only when both fits succeeded; if either one
fails, nothing is reported, including the successful fit. -/
theorem c5_gate_requires_both (pun pin : Option FitResult) :
    (display_results pun pin = none ↔ pun = none ∨ pin = none) ∧
    (∀ a b : FitResult, display_results pun pin = some (a, b) ↔
      pun = some a ∧ pin = some b) := by
  cases pun <;> cases pin <;> simp [display_results]

/-- Witness for the amended C5: a successful fit paired with a failure is
not reported. -/
theorem c5_gate_witness : display_results (some rThroughOrigin) none = none :=
  ((c5_gate_requires_both (some rThroughOrigin) none).1).mpr (Or.inr rfl)

/-- C8: when the fitted intercept is exactly zero, the returned Fit
Result carries `Vmax = +infinity` (the reciprocal of `+0`) and
`Km = slope * infinity`; a result is returned, no exception is raised. -/
theorem c8_zero_intercept (samples : List (ℚ × ℚ)) (r : FitResult)
    (hp : process_kinetics_data samples = some r)
    (hb : r.intercept = FV.fin 0) :
    r.Vmax = FV.pinf ∧ r.Km = FV.mul r.slope FV.pinf := by
  obtain ⟨hV, hK, -, -, -⟩ := process_some_fields samples r hp
  rw [hb] at hV
  have hdiv : FV.div (FV.fin 1) (FV.fin 0) = FV.pinf := by decide
  rw [hdiv] at hV
  exact ⟨hV, by rw [hK, hV]⟩

/-- Witness for C8: the samples `[(1, 1), (1/2, 1/2)]` produce an exact
fit through the origin, hence a zero intercept and an infinite `Vmax`,
and the call still returns a result. -/
theorem c8_zero_intercept_witness :
    rDegenerate.intercept = FV.fin 0 ∧
    rDegenerate.Vmax = FV.pinf ∧ rDegenerate.Km = FV.mul rDegenerate.slope FV.pinf :=
  ⟨rfl, c8_zero_intercept [((1:ℚ), (1:ℚ)), (1/2, 1/2)] rDegenerate
    (by
      simp only [process_kinetics_data, linregress, sampleFilter, reciprocalsS,
        reciprocalsV, meanQ, ssxmQ, allEqHead, rDegenerate, List.filter_cons,
        List.filter_nil, List.map_cons, List.map_nil, List.length_cons,
        List.length_nil, List.sum_cons, List.sum_nil, List.all_cons, List.all_nil,
        List.zipWith_cons_cons, List.zipWith_nil_left, List.zipWith_nil_right,
        FV.sum_cons, FV.sum_nil]
      norm_num [FV.div, FV.add, FV.sub, FV.mul, FV.neg]) rfl⟩

/-- C9: the fitter is deterministic and stateless: the returned value
never depends on the incoming UI state, and a second call with the same
input (threading the state of the first) returns the identical result. -/
theorem c9_idempotent (samples : List (ℚ × ℚ)) (st1 st2 : UIState) :
    (process_kinetics_data_st samples st1).1 = (process_kinetics_data_st samples st2).1 ∧
    (process_kinetics_data_st samples (process_kinetics_data_st samples st1).2).1 =
      (process_kinetics_data_st samples st1).1 := by
  cases h : process_kinetics_data samples <;> simp [process_kinetics_data_st, h]

/-- C10: a pair with strictly negative concentration passes the filter
(only exact zeros are removed), its reciprocal is computed, and it is
part of the x input of the regression (the `inv_S` of the result). -/
theorem c10_negative_concentration (samples : List (ℚ × ℚ)) (S v : ℚ)
    (hmem : (S, v) ∈ samples) (hneg : S < 0) :
    (S, v) ∈ sampleFilter samples ∧
    1 / S ∈ reciprocalsS (sampleFilter samples) ∧
    (∀ r : FitResult, process_kinetics_data samples = some r → 1 / S ∈ r.inv_S) := by
  have hS : S ≠ 0 := ne_of_lt hneg
  have h1 : (S, v) ∈ sampleFilter samples :=
    List.mem_filter.mpr ⟨hmem, by simp [hS]⟩
  refine ⟨h1, List.mem_map.mpr ⟨(S, v), h1, rfl⟩, ?_⟩
  intro r hr
  obtain ⟨-, -, hinvS, -, -⟩ := process_some_fields samples r hr
  rw [hinvS]
  exact List.mem_map.mpr ⟨(S, v), h1, rfl⟩

/-- Witness for C10: the sample `(-1, 2)` is retained, its reciprocal
`-1` appears among the regression inputs, and the fit proceeds. -/
theorem c10_negative_concentration_witness :
    ((-1:ℚ), (2:ℚ)) ∈ sampleFilter [((-1:ℚ), (2:ℚ)), (1, 3)] ∧
    1 / (-1:ℚ) ∈ reciprocalsS (sampleFilter [((-1:ℚ), (2:ℚ)), (1, 3)]) ∧
    1 / (-1:ℚ) ∈ rNeg.inv_S := by
  have h := c10_negative_concentration [((-1:ℚ), (2:ℚ)), (1, 3)] (-1) 2
    (by simp) (by norm_num)
  refine ⟨h.1, h.2.1, h.2.2 rNeg ?_⟩
  simp only [process_kinetics_data, linregress, sampleFilter, reciprocalsS,
    reciprocalsV, meanQ, ssxmQ, allEqHead, rNeg, List.filter_cons,
    List.filter_nil, List.map_cons, List.map_nil, List.length_cons,
    List.length_nil, List.sum_cons, List.sum_nil, List.all_cons, List.all_nil,
    List.zipWith_cons_cons, List.zipWith_nil_left, List.zipWith_nil_right,
    FV.sum_cons, FV.sum_nil]
  norm_num [FV.div, FV.add, FV.sub, FV.mul, FV.neg]

/-- C7: a retained sample with zero velocity is passed through: the
reciprocal transform turns it into the IEEE positive infinity, that value
is part of the y input handed to the regression, and no error is raised,
because the error guards of `linregress` depend only on the x values.
The last hypothesis rules out the sample sets whose x values alone abort
the fit (two or more points, all with equal concentration). -/
theorem c7_zero_velocity (samples : List (ℚ × ℚ)) (S0 : ℚ)
    (hmem : (S0, (0:ℚ)) ∈ samples) (hS : S0 ≠ 0)
    (hnd : (sampleFilter samples).length = 1 ∨
      ∃ p ∈ sampleFilter samples, ∃ q ∈ sampleFilter samples, p.1 ≠ q.1) :
    ∃ r : FitResult, process_kinetics_data samples = some r ∧ FV.pinf ∈ r.inv_v := by
  have hk : (S0, (0:ℚ)) ∈ sampleFilter samples :=
    List.mem_filter.mpr ⟨hmem, by simp [hS]⟩
  have hpinf : FV.pinf ∈ reciprocalsV (sampleFilter samples) :=
    List.mem_map.mpr ⟨(S0, 0), hk, by norm_num [FV.div]⟩
  have hne : sampleFilter samples ≠ [] := List.ne_nil_of_mem hk
  have h1 : ¬((reciprocalsS (sampleFilter samples)).length = 0 ∨
      (reciprocalsV (sampleFilter samples)).length = 0) := by
    simp [reciprocalsS, reciprocalsV, hne]
  have h2 : ¬(1 < (reciprocalsS (sampleFilter samples)).length ∧
      allEqHead (reciprocalsS (sampleFilter samples)) = true) := by
    rcases hnd with hlen | ⟨p, hp, q, hq, hpq⟩
    · intro hcon
      rw [reciprocalsS, List.length_map, hlen] at hcon
      exact absurd hcon.1 (by norm_num)
    · intro hcon
      have hmp : 1 / p.1 ∈ reciprocalsS (sampleFilter samples) :=
        List.mem_map.mpr ⟨p, hp, rfl⟩
      have hmq : 1 / q.1 ∈ reciprocalsS (sampleFilter samples) :=
        List.mem_map.mpr ⟨q, hq, rfl⟩
      have heq : (1:ℚ) / p.1 = 1 / q.1 :=
        (allEqHead_true_iff _).mp hcon.2 _ hmp _ hmq
      rw [one_div, one_div] at heq
      exact hpq (inv_injective heq)
  obtain ⟨s, b, hok⟩ := linregress_ok_of _ _ h1 h2
  refine ⟨⟨reciprocalsS (sampleFilter samples), reciprocalsV (sampleFilter samples),
    FV.div (FV.fin 1) b, FV.mul s (FV.div (FV.fin 1) b), s, b⟩, ?_, hpinf⟩
  unfold process_kinetics_data
  rw [hok]

/-- Witness for C7: the sample set `[(1, 0), (2, 1)]` keeps the
zero-velocity point, produces an infinite reciprocal velocity, and the
fit still returns a result. -/
theorem c7_zero_velocity_witness :
    ∃ r : FitResult, process_kinetics_data [((1:ℚ), (0:ℚ)), (2, 1)] = some r ∧
      FV.pinf ∈ r.inv_v :=
  c7_zero_velocity [((1:ℚ), (0:ℚ)), (2, 1)] 1 (by simp) (by norm_num)
    (Or.inr ⟨(1, 0), by simp [sampleFilter], (2, 1), by simp [sampleFilter],
      by norm_num⟩)

/-- C4: the shared x-axis domain runs from `1.1 * min(0, x_int_un,
x_int_in)`, with each x-intercept `x_int = -1/Km`, to `1.1 *` the maximum
of the reciprocal concentrations across both sample sets. -/
theorem c4_x_domain (Km_un Km_in M1 M2 : ℚ) (l1 l2 : List ℚ)
    (h1 : pyMax l1 = some M1) (h2 : pyMax l2 = some M2) :
    x_domain Km_un Km_in l1 l2 =
      some ((11/10) * min 0 (min (x_int Km_un) (x_int Km_in)),
            (11/10) * max M1 M2) ∧
    x_int Km_un = -1 / Km_un ∧ x_int Km_in = -1 / Km_in ∧
    max M1 M2 ∈ l1 ++ l2 ∧ (∀ q ∈ l1 ++ l2, q ≤ max M1 M2) := by
  obtain ⟨hm1, hu1⟩ := pyMax_spec l1 M1 h1
  obtain ⟨hm2, hu2⟩ := pyMax_spec l2 M2 h2
  refine ⟨?_, rfl, rfl, ?_, ?_⟩
  · have hstep : x_domain Km_un Km_in l1 l2 =
        some (min (min 0 (x_int Km_un)) (x_int Km_in) * (11/10),
              max M1 M2 * (11/10)) := by
      unfold x_domain
      rw [h1, h2]
    rw [hstep, min_assoc, mul_comm, mul_comm (max M1 M2)]
  · rcases max_choice M1 M2 with h | h
    · rw [h]; exact List.mem_append_left l2 hm1
    · rw [h]; exact List.mem_append_right l1 hm2
  · intro q hq
    rcases List.mem_append.mp hq with hq | hq
    · exact le_trans (hu1 q hq) (le_max_left M1 M2)
    · exact le_trans (hu2 q hq) (le_max_right M1 M2)

/-- Witness for C4 at concrete fit results and sample reciprocals. -/
theorem c4_x_domain_witness :
    x_domain 1 1 [(1:ℚ)] [(2:ℚ)] =
      some ((11/10) * min 0 (min (x_int 1) (x_int 1)), (11/10) * max (1:ℚ) 2) ∧
    max (1:ℚ) 2 ∈ [(1:ℚ)] ++ [(2:ℚ)] :=
  ⟨(c4_x_domain 1 1 1 2 [1] [2] rfl rfl).1,
   (c4_x_domain 1 1 1 2 [1] [2] rfl rfl).2.2.2.1⟩

/-- Counterexample to C3: a sample set with exactly one valid point
(fewer than two) does not yield an error: `linregress` only raises its
identical-x error when there is more than one point, so the single-point
fit goes through with `0/0` moments and the fitter returns a Fit Result
whose numeric fields are all `nan` instead of reporting
`InsufficientData`. -/
theorem c3_counterexample :
    (sampleFilter [((1:ℚ), (2:ℚ))]).length = 1 ∧
    process_kinetics_data [((1:ℚ), (2:ℚ))] =
      some ⟨[1], [FV.fin (1/2)], FV.nan, FV.nan, FV.nan, FV.nan⟩ := by
  constructor
  · rfl
  · simp only [process_kinetics_data, linregress, sampleFilter, reciprocalsS,
      reciprocalsV, meanQ, ssxmQ, allEqHead, List.filter_cons, List.filter_nil,
      List.map_cons, List.map_nil, List.length_cons, List.length_nil,
      List.sum_cons, List.sum_nil, List.all_cons, List.all_nil,
      List.zipWith_cons_cons, List.zipWith_nil_left, List.zipWith_nil_right,
      FV.sum_cons, FV.sum_nil]
    norm_num [FV.div, FV.add, FV.sub, FV.mul, FV.neg]

/-- C3 as amended: a sample set with zero valid points yields an error
(`InsufficientData` behaviour), but a sample set with exactly one valid
point returns a Fit Result whose slope, intercept, `Vmax` and `Km` are
all `nan` instead of an error. -/
theorem c3_insufficient_data (samples : List (ℚ × ℚ)) :
    (sampleFilter samples = [] → process_kinetics_data samples = none) ∧
    (∀ p : ℚ × ℚ, sampleFilter samples = [p] →
      ∃ r : FitResult, process_kinetics_data samples = some r ∧
        r.slope = FV.nan ∧ r.intercept = FV.nan ∧
        r.Vmax = FV.nan ∧ r.Km = FV.nan) := by
  constructor
  · intro h
    unfold process_kinetics_data
    rw [h]
    rfl
  · intro p hp
    obtain ⟨a, b⟩ := p
    unfold process_kinetics_data
    rw [hp]
    by_cases hb : b = 0
    · subst hb
      have hok : linregress (reciprocalsS [(a, (0:ℚ))]) (reciprocalsV [(a, 0)]) =
          Except.ok (FV.nan, FV.nan) := by
        simp only [linregress, reciprocalsS, reciprocalsV, meanQ, ssxmQ,
          allEqHead, List.map_cons, List.map_nil, List.length_cons,
          List.length_nil, List.sum_cons, List.sum_nil, List.all_nil,
          List.zipWith_cons_cons, List.zipWith_nil_left, List.zipWith_nil_right,
          FV.sum_cons, FV.sum_nil]
        norm_num [FV.div, FV.add, FV.sub, FV.mul, FV.neg]
      rw [hok]
      exact ⟨_, rfl, rfl, rfl, rfl, rfl⟩
    · have hok : linregress (reciprocalsS [(a, b)]) (reciprocalsV [(a, b)]) =
          Except.ok (FV.nan, FV.nan) := by
        simp only [linregress, reciprocalsS, reciprocalsV, meanQ, ssxmQ,
          allEqHead, List.map_cons, List.map_nil, List.length_cons,
          List.length_nil, List.sum_cons, List.sum_nil, List.all_nil,
          List.zipWith_cons_cons, List.zipWith_nil_left, List.zipWith_nil_right,
          FV.sum_cons, FV.sum_nil]
        norm_num [FV.div, FV.add, FV.sub, FV.mul, FV.neg, hb]
      rw [hok]
      exact ⟨_, rfl, rfl, rfl, rfl, rfl⟩

/-- Witness for the amended C3: the all-zero-concentration set errors
out, while a one-valid-point set returns an all-`nan` Fit Result. -/
theorem c3_insufficient_data_witness :
    process_kinetics_data [((0:ℚ), (5:ℚ))] = none ∧
    ∃ r : FitResult, process_kinetics_data [((3:ℚ), (4:ℚ))] = some r ∧
      r.slope = FV.nan ∧ r.intercept = FV.nan ∧ r.Vmax = FV.nan ∧ r.Km = FV.nan :=
  ⟨(c3_insufficient_data [((0:ℚ), (5:ℚ))]).1 (by rfl),
   (c3_insufficient_data [((3:ℚ), (4:ℚ))]).2 (3, 4) (by rfl)⟩

/-! ## Ordinary least squares over the rationals

To give substance to the claim that `linregress` returns the
ordinary-least-squares line, we characterise the fitted slope and
intercept as the minimisers of the residual sum of squares over the
transformed data points. -/

/-- Sum of the x coordinates of a data set. -/
def Sx (l : List (ℚ × ℚ)) : ℚ := (l.map (fun p => p.1)).sum

/-- Sum of the y coordinates of a data set. -/
def Sy (l : List (ℚ × ℚ)) : ℚ := (l.map (fun p => p.2)).sum

/-- Sum of the squared x coordinates of a data set. -/
def Sxx (l : List (ℚ × ℚ)) : ℚ := (l.map (fun p => p.1 ^ 2)).sum

/-- Sum of the products of the coordinates of a data set. -/
def Sxy (l : List (ℚ × ℚ)) : ℚ := (l.map (fun p => p.1 * p.2)).sum

/-- Sum of the squared y coordinates of a data set. -/
def Syy (l : List (ℚ × ℚ)) : ℚ := (l.map (fun p => p.2 ^ 2)).sum

/-- Residual sum of squares of the line `y = m * x + b` over a data set. -/
def RSS (l : List (ℚ × ℚ)) (m b : ℚ) : ℚ :=
  (l.map (fun p => (p.2 - (m * p.1 + b)) ^ 2)).sum

/-- The closed-form ordinary-least-squares slope of a data set. -/
def slopeStar (l : List (ℚ × ℚ)) : ℚ :=
  ((l.length : ℚ) * Sxy l - Sx l * Sy l) / ((l.length : ℚ) * Sxx l - Sx l ^ 2)

/-- The closed-form ordinary-least-squares intercept of a data set. -/
def interceptStar (l : List (ℚ × ℚ)) : ℚ :=
  Sy l / l.length - slopeStar l * (Sx l / l.length)

theorem rss_expand (l : List (ℚ × ℚ)) (m b : ℚ) :
    RSS l m b = Syy l - 2*m*Sxy l - 2*b*Sy l + m^2*Sxx l + 2*m*b*Sx l
      + (l.length : ℚ) * b^2 := by
  induction l with
  | nil => simp [RSS, Sx, Sy, Sxx, Sxy, Syy]
  | cons p t ih =>
      simp only [RSS, Sx, Sy, Sxx, Sxy, Syy, List.map_cons, List.sum_cons,
        List.length_cons] at *
      push_cast
      linear_combination ih

theorem sum_centered_sq (xs : List ℚ) (c : ℚ) :
    (xs.map (fun xi => (xi - c) ^ 2)).sum =
      (xs.map (fun xi => xi ^ 2)).sum - 2 * c * xs.sum + (xs.length : ℚ) * c ^ 2 := by
  induction xs with
  | nil => simp
  | cons a t ih =>
      simp only [List.map_cons, List.sum_cons, List.length_cons]
      push_cast
      linear_combination ih

theorem sum_centered_mul {α : Type} (l : List α) (f g : α → ℚ) (cx cy : ℚ) :
    (l.map (fun a => (f a - cx) * (g a - cy))).sum =
      (l.map (fun a => f a * g a)).sum - cx * (l.map g).sum - cy * (l.map f).sum
        + (l.length : ℚ) * (cx * cy) := by
  induction l with
  | nil => simp
  | cons a t ih =>
      simp only [List.map_cons, List.sum_cons, List.length_cons]
      push_cast
      linear_combination ih

theorem zipWith_map_same {α β γ δ : Type} (l : List α) (f : α → β) (g : α → γ)
    (h : β → γ → δ) :
    List.zipWith h (l.map f) (l.map g) = l.map (fun a => h (f a) (g a)) := by
  induction l with
  | nil => rfl
  | cons a t ih => simp [ih]

theorem sum_sq_nonneg {α : Type} (l : List α) (f : α → ℚ) :
    0 ≤ (l.map (fun a => f a ^ 2)).sum := by
  induction l with
  | nil => simp
  | cons a t ih =>
      simp only [List.map_cons, List.sum_cons]
      exact add_nonneg (sq_nonneg _) ih

/-- The discriminant `n * Sxx - Sx^2` is `n` times a sum of squares, so
it is nonnegative. -/
theorem discD_nonneg (l : List (ℚ × ℚ)) :
    0 ≤ (l.length : ℚ) * Sxx l - Sx l ^ 2 := by
  rcases eq_or_ne l [] with rfl | hne
  · simp [Sx, Sxx]
  · have hN : (0:ℚ) < l.length := by
      exact_mod_cast List.length_pos.mpr hne
    have hsq := sum_centered_sq (l.map (fun p => p.1)) (Sx l / l.length)
    rw [List.map_map, List.map_map] at hsq
    have hid : (l.length : ℚ) * Sxx l - Sx l ^ 2 =
        (l.length : ℚ) *
          ((l.map (fun p => (p.1 - Sx l / l.length) ^ 2)).sum) := by
      rw [show (l.map (fun p => (p.1 - Sx l / l.length) ^ 2)) =
          l.map ((fun xi => (xi - Sx l / l.length) ^ 2) ∘ (fun p => p.1)) from rfl]
      rw [← List.map_map, sum_centered_sq]
      rw [List.map_map, List.length_map]
      have hxx : (l.map ((fun xi => xi ^ 2) ∘ fun p => p.1)).sum = Sxx l := rfl
      have hx : (l.map (fun p => p.1)).sum = Sx l := rfl
      rw [hxx, hx]
      field_simp
      ring
    rw [hid]
    refine mul_nonneg hN.le ?_
    exact sum_sq_nonneg l (fun p => p.1 - Sx l / l.length)

/-- The closed-form slope and intercept minimise the residual sum of
squares: ordinary least squares. -/
theorem ols_optimal (l : List (ℚ × ℚ)) (hne : l ≠ [])
    (hD : (l.length : ℚ) * Sxx l - Sx l ^ 2 ≠ 0) (m b : ℚ) :
    RSS l (slopeStar l) (interceptStar l) ≤ RSS l m b := by
  have hN : (0:ℚ) < l.length := by exact_mod_cast List.length_pos.mpr hne
  have hN0 : (l.length : ℚ) ≠ 0 := ne_of_gt hN
  have hDpos : 0 < (l.length : ℚ) * Sxx l - Sx l ^ 2 :=
    lt_of_le_of_ne (discD_nonneg l) (Ne.symm hD)
  have key : RSS l m b - RSS l (slopeStar l) (interceptStar l) =
      (((l.length : ℚ) * Sxx l - Sx l ^ 2) / l.length) * (m - slopeStar l) ^ 2
        + (l.length : ℚ) * (b - Sy l / l.length + m * (Sx l / l.length)) ^ 2 := by
    rw [rss_expand, rss_expand, interceptStar, slopeStar]
    field_simp
    ring
  have t1 : 0 ≤ (((l.length : ℚ) * Sxx l - Sx l ^ 2) / l.length) *
      (m - slopeStar l) ^ 2 :=
    mul_nonneg (div_nonneg hDpos.le hN.le) (sq_nonneg _)
  have t2 : 0 ≤ (l.length : ℚ) *
      (b - Sy l / l.length + m * (Sx l / l.length)) ^ 2 :=
    mul_nonneg hN.le (sq_nonneg _)
  linarith [key, t1, t2]

/-- Mean-centered mixed second moment (`ssxym` in `linregress`) as a
rational, for finite y data. -/
def ssxymQ (xs ys : List ℚ) : ℚ :=
  ((List.zipWith (fun xi yi => (xi - meanQ xs) * (yi - meanQ ys)) xs ys).sum)
    / xs.length

/-- On finite y data, `linregress` computes `slope = ssxym / ssxm` and
`intercept = ymean - slope * xmean` in exact rational arithmetic (the
divisions still follow the IEEE rules, so a zero `ssxm` produces a
special value rather than an error). -/
theorem linregress_fin (xs ys : List ℚ) (hlen : ys.length = xs.length)
    (hg1 : ¬(xs.length = 0 ∨ ys.length = 0))
    (hg2 : ¬(1 < xs.length ∧ allEqHead xs = true)) :
    linregress xs (ys.map FV.fin) =
      Except.ok (FV.div (FV.fin (ssxymQ xs ys)) (FV.fin (ssxmQ xs)),
        FV.sub (FV.fin (meanQ ys))
          (FV.mul (FV.div (FV.fin (ssxymQ xs ys)) (FV.fin (ssxmQ xs)))
            (FV.fin (meanQ xs)))) := by
  have hx0 : xs.length ≠ 0 := fun h => hg1 (Or.inl h)
  have hN0 : (xs.length : ℚ) ≠ 0 := Nat.cast_ne_zero.mpr hx0
  have hg1m : ¬(xs.length = 0 ∨ (ys.map FV.fin).length = 0) := by
    rw [List.length_map]
    exact hg1
  have hym : FV.div (FV.sum (ys.map FV.fin)) (FV.fin (xs.length : ℚ)) =
      FV.fin (meanQ ys) := by
    rw [FV.sum_map_fin, FV.div_fin_fin _ _ hN0, meanQ, hlen]
  have hzip : List.zipWith
      (fun xi yi => FV.mul (FV.fin (xi - meanQ xs)) (FV.sub yi (FV.fin (meanQ ys))))
      xs (ys.map FV.fin) =
      (List.zipWith (fun xi yi => (xi - meanQ xs) * (yi - meanQ ys)) xs ys).map
        FV.fin := by
    rw [List.zipWith_map_right, List.map_zipWith]
    simp only [FV.sub_fin_fin, FV.mul_fin_fin]
  have hsq : FV.div
      (FV.sum ((List.zipWith (fun xi yi => (xi - meanQ xs) * (yi - meanQ ys))
        xs ys).map FV.fin)) (FV.fin (xs.length : ℚ)) = FV.fin (ssxymQ xs ys) := by
    rw [FV.sum_map_fin, FV.div_fin_fin _ _ hN0]
    rfl
  unfold linregress
  rw [if_neg hg1m, if_neg hg2]
  simp only [hym, hzip, hsq]

/-- The reciprocal-transformed data points: the pairs `(1/S, 1/v)` whose
second coordinates the regression fits against the first. -/
def recpairs (kept : List (ℚ × ℚ)) : List (ℚ × ℚ) :=
  kept.map (fun p => (1 / p.1, 1 / p.2))

/-- Dividing a finite value by the (positive) zero never yields a finite
value: the result is an infinity or `nan`. -/
theorem div_fin_zero_ne_fin (a c : ℚ) :
    FV.div (FV.fin a) (FV.fin 0) ≠ FV.fin c := by
  have h : FV.div (FV.fin a) (FV.fin 0) =
      if a = 0 then FV.nan else if 0 < a then FV.pinf else FV.ninf := by
    simp [FV.div]
  rw [h]
  split_ifs <;> simp

/-- When the fitter returns finite slope and intercept on data with
nonzero velocities, they are the ordinary-least-squares coefficients:
they minimise the residual sum of squares over the reciprocal points. -/
theorem slope_intercept_minimise (kept : List (ℚ × ℚ)) (ms bs : ℚ)
    (hv : ∀ p ∈ kept, p.2 ≠ 0)
    (hok : linregress (reciprocalsS kept) (reciprocalsV kept) =
      Except.ok (FV.fin ms, FV.fin bs)) :
    ∀ m b : ℚ, RSS (recpairs kept) ms bs ≤ RSS (recpairs kept) m b := by
  have hfinv : reciprocalsV kept = (kept.map (fun p => 1 / p.2)).map FV.fin := by
    rw [reciprocalsV, List.map_map]
    refine List.map_congr_left ?_
    intro p hp
    simp [Function.comp, FV.div_fin_fin _ _ (hv p hp)]
  rw [hfinv] at hok
  have hguards := linregress_ok_inv _ _ _ hok
  have hxy : (kept.map (fun p => 1 / p.2)).length = (reciprocalsS kept).length := by
    rw [reciprocalsS, List.length_map, List.length_map]
  have hg1 : ¬((reciprocalsS kept).length = 0 ∨
      (kept.map (fun p => 1 / p.2)).length = 0) := by
    rintro (h | h)
    · exact hguards.1 h
    · exact hguards.1 (by rw [← hxy]; exact h)
  have hg2 : ¬(1 < (reciprocalsS kept).length ∧
      allEqHead (reciprocalsS kept) = true) := hguards.2.2
  have heq := hok.symm.trans
    (linregress_fin (reciprocalsS kept) (kept.map (fun p => 1 / p.2)) hxy hg1 hg2)
  simp only [Except.ok.injEq, Prod.mk.injEq] at heq
  have hB : ssxmQ (reciprocalsS kept) ≠ 0 := by
    intro h0
    rw [h0] at heq
    exact div_fin_zero_ne_fin _ _ heq.1.symm
  have hms : ms = ssxymQ (reciprocalsS kept) (kept.map (fun p => 1 / p.2)) /
      ssxmQ (reciprocalsS kept) := by
    have h := heq.1
    rw [FV.div_fin_fin _ _ hB] at h
    simpa using h
  have hbs : bs = meanQ (kept.map (fun p => 1 / p.2)) -
      ms * meanQ (reciprocalsS kept) := by
    have h := heq.2
    rw [FV.div_fin_fin _ _ hB] at h
    simp only [FV.mul_fin_fin, FV.sub_fin_fin, FV.fin.injEq] at h
    rw [h, hms]
  -- emptiness and length facts
  have hk0 : kept ≠ [] := by
    intro h
    apply hguards.1
    rw [h]
    rfl
  have hN : (0:ℚ) < kept.length := by exact_mod_cast List.length_pos.mpr hk0
  have hNk : (kept.length : ℚ) ≠ 0 := ne_of_gt hN
  have hXlen : ((reciprocalsS kept).length : ℚ) = (kept.length : ℚ) := by
    rw [reciprocalsS, List.length_map]
  have hYlen : ((kept.map (fun p => 1 / p.2)).length : ℚ) = (kept.length : ℚ) := by
    rw [List.length_map]
  have hLlen : ((recpairs kept).length : ℚ) = (kept.length : ℚ) := by
    rw [recpairs, List.length_map]
  have hne : recpairs kept ≠ [] := by
    intro h
    exact hk0 ((List.map_eq_nil_iff).mp h)
  -- power-sum bridges
  have hSx : Sx (recpairs kept) = (reciprocalsS kept).sum := by
    rw [Sx, recpairs, List.map_map, reciprocalsS]
    rfl
  have hSy : Sy (recpairs kept) = (kept.map (fun p => 1 / p.2)).sum := by
    rw [Sy, recpairs, List.map_map]
    rfl
  have hSxx : Sxx (recpairs kept) =
      ((reciprocalsS kept).map (fun xi => xi ^ 2)).sum := by
    rw [Sxx, recpairs, List.map_map, reciprocalsS, List.map_map]
    rfl
  -- value of ssxm in terms of the power sums
  have hssxm : ssxmQ (reciprocalsS kept) =
      ((kept.length : ℚ) * Sxx (recpairs kept) - Sx (recpairs kept) ^ 2) /
        (kept.length : ℚ) ^ 2 := by
    rw [ssxmQ, sum_centered_sq, hSxx, hSx, meanQ, hXlen]
    field_simp
    ring
  -- value of ssxym in terms of the power sums
  have hzipm : List.zipWith
      (fun xi yi => (xi - meanQ (reciprocalsS kept)) *
        (yi - meanQ (kept.map (fun p => 1 / p.2))))
      (reciprocalsS kept) (kept.map (fun p => 1 / p.2)) =
      kept.map (fun p => (1 / p.1 - meanQ (reciprocalsS kept)) *
        (1 / p.2 - meanQ (kept.map (fun p => 1 / p.2)))) := by
    rw [reciprocalsS, zipWith_map_same]
  have hSxyb : (kept.map (fun p => (1 / p.1) * (1 / p.2))).sum =
      Sxy (recpairs kept) := by
    rw [Sxy, recpairs, List.map_map]
    rfl
  have hSxu : (kept.map (fun p => 1 / p.1)).sum = Sx (recpairs kept) := by
    rw [hSx, reciprocalsS]
  have hSyu : (kept.map (fun p => 1 / p.2)).sum = Sy (recpairs kept) := hSy.symm
  have hmX : meanQ (reciprocalsS kept) =
      Sx (recpairs kept) / (kept.length : ℚ) := by
    rw [meanQ, ← hSx, hXlen]
  have hmY : meanQ (kept.map (fun p => 1 / p.2)) =
      Sy (recpairs kept) / (kept.length : ℚ) := by
    rw [meanQ, ← hSy, hYlen]
  have hssxym : ssxymQ (reciprocalsS kept) (kept.map (fun p => 1 / p.2)) =
      ((kept.length : ℚ) * Sxy (recpairs kept) -
        Sx (recpairs kept) * Sy (recpairs kept)) / (kept.length : ℚ) ^ 2 := by
    rw [ssxymQ, hzipm, sum_centered_mul, hSxyb, hmX, hmY, hSyu, hSxu, hXlen]
    field_simp
    ring
  -- the discriminant is nonzero
  have hD : (kept.length : ℚ) * Sxx (recpairs kept) - Sx (recpairs kept) ^ 2 ≠ 0 := by
    intro h
    apply hB
    rw [hssxm, h, zero_div]
  have hDlen : ((recpairs kept).length : ℚ) * Sxx (recpairs kept) -
      Sx (recpairs kept) ^ 2 ≠ 0 := by
    rw [hLlen]
    exact hD
  -- identification with the closed-form OLS coefficients
  have hms2 : ms = slopeStar (recpairs kept) := by
    rw [hms, slopeStar, hLlen, hssxm, hssxym]
    field_simp
  have hbs2 : bs = interceptStar (recpairs kept) := by
    rw [hbs, hmY, hmX, interceptStar, ← hms2, hLlen]
  intro m b
  rw [hms2, hbs2]
  exact ols_optimal (recpairs kept) hne hDlen m b

/-- C1: for every sample set accepted by the fitter whose retained
velocities are nonzero and whose fitted slope and intercept are finite,
the returned Fit Result satisfies `Vmax = 1 / intercept` and
`Km = slope * Vmax`, and the fitted slope and intercept are those of the
ordinary least-squares regression of the reciprocal velocities against
the reciprocal concentrations: they minimise the residual sum of squares
over the transformed points. -/
theorem c1_ols_fit (samples : List (ℚ × ℚ)) (r : FitResult) (ms bs : ℚ)
    (hproc : process_kinetics_data samples = some r)
    (hv : ∀ p ∈ sampleFilter samples, p.2 ≠ 0)
    (hm : r.slope = FV.fin ms) (hb : r.intercept = FV.fin bs) :
    r.Vmax = FV.div (FV.fin 1) r.intercept ∧
    r.Km = FV.mul r.slope r.Vmax ∧
    ∀ m b : ℚ, RSS (recpairs (sampleFilter samples)) ms bs ≤
      RSS (recpairs (sampleFilter samples)) m b := by
  obtain ⟨hV, hK, -, -, hok⟩ := process_some_fields samples r hproc
  rw [hm, hb] at hok
  exact ⟨hV, hK, slope_intercept_minimise (sampleFilter samples) ms bs hv hok⟩

/-- The fit of the samples `[(1, 1), (1/3, 1/2)]` (reciprocal points
`(1, 1)` and `(3, 2)`): the line `y = x/2 + 1/2`. -/
def rHalf : FitResult :=
  ⟨[1, 3], [FV.fin 1, FV.fin 2], FV.fin 2, FV.fin 1, FV.fin (1/2), FV.fin (1/2)⟩

/-- Witness for C1 at a concrete sample set: the derivation identities
hold and the fitted line beats the line `y = x` on residuals. -/
theorem c1_ols_fit_witness :
    rHalf.Vmax = FV.div (FV.fin 1) rHalf.intercept ∧
    rHalf.Km = FV.mul rHalf.slope rHalf.Vmax ∧
    RSS (recpairs (sampleFilter [((1:ℚ), (1:ℚ)), (1/3, 1/2)])) (1/2) (1/2) ≤
      RSS (recpairs (sampleFilter [((1:ℚ), (1:ℚ)), (1/3, 1/2)])) 1 0 := by
  have h := c1_ols_fit [((1:ℚ), (1:ℚ)), (1/3, 1/2)] rHalf (1/2) (1/2)
    (by
      simp only [process_kinetics_data, linregress, sampleFilter, reciprocalsS,
        reciprocalsV, meanQ, ssxmQ, allEqHead, rHalf, List.filter_cons,
        List.filter_nil, List.map_cons, List.map_nil, List.length_cons,
        List.length_nil, List.sum_cons, List.sum_nil, List.all_cons, List.all_nil,
        List.zipWith_cons_cons, List.zipWith_nil_left, List.zipWith_nil_right,
        FV.sum_cons, FV.sum_nil]
      norm_num [FV.div, FV.add, FV.sub, FV.mul, FV.neg])
    (by
      intro p hp
      simp only [sampleFilter, List.filter_cons, List.filter_nil] at hp
      norm_num at hp
      rcases hp with rfl | rfl <;> norm_num)
    rfl rfl
  exact ⟨h.1, h.2.1, h.2.2 1 0⟩

/-- Counterexample to C6: exactly two valid points do not guarantee an
exact fit through the reciprocal points.  With two samples at the same
concentration the fitter errors out (the identical-x guard) and returns
no Fit Result; with a zero velocity among the two points it returns
all-`nan` coefficients, which are not the finite line through the two
reciprocal points. -/
theorem c6_counterexample :
    (sampleFilter [((3:ℚ), (1:ℚ)), (3, 2)]).length = 2 ∧
    process_kinetics_data [((3:ℚ), (1:ℚ)), (3, 2)] = none ∧
    process_kinetics_data [((1:ℚ), (0:ℚ)), (2, 3)] =
      some ⟨[1, 1/2], [FV.pinf, FV.fin (1/3)], FV.nan, FV.nan, FV.nan, FV.nan⟩ := by
  refine ⟨rfl, ?_, ?_⟩
  · simp only [process_kinetics_data, linregress, sampleFilter, reciprocalsS,
      reciprocalsV, meanQ, ssxmQ, allEqHead, List.filter_cons, List.filter_nil,
      List.map_cons, List.map_nil, List.length_cons, List.length_nil,
      List.sum_cons, List.sum_nil, List.all_cons, List.all_nil,
      List.zipWith_cons_cons, List.zipWith_nil_left, List.zipWith_nil_right,
      FV.sum_cons, FV.sum_nil]
    norm_num [FV.div, FV.add, FV.sub, FV.mul, FV.neg]
  · simp only [process_kinetics_data, linregress, sampleFilter, reciprocalsS,
      reciprocalsV, meanQ, ssxmQ, allEqHead, List.filter_cons, List.filter_nil,
      List.map_cons, List.map_nil, List.length_cons, List.length_nil,
      List.sum_cons, List.sum_nil, List.all_cons, List.all_nil,
      List.zipWith_cons_cons, List.zipWith_nil_left, List.zipWith_nil_right,
      FV.sum_cons, FV.sum_nil]
    norm_num [FV.div, FV.add, FV.sub, FV.mul, FV.neg]

theorem two_point_slope (x1 x2 y1 y2 : ℚ) (hx : x1 ≠ x2) :
    (x1 - x2) * (y1 - y2) / 4 / ((x1 - x2) ^ 2 / 4) = (y2 - y1) / (x2 - x1) := by
  have hd : x1 - x2 ≠ 0 := sub_ne_zero.mpr hx
  have hd2 : x2 - x1 ≠ 0 := sub_ne_zero.mpr (Ne.symm hx)
  field_simp
  ring

theorem two_point_intercept (x1 x2 y1 y2 : ℚ) (hx : x1 ≠ x2) :
    meanQ [y1, y2] - (y2 - y1) / (x2 - x1) * meanQ [x1, x2] =
      y1 - (y2 - y1) / (x2 - x1) * x1 := by
  have hd2 : x2 - x1 ≠ 0 := sub_ne_zero.mpr (Ne.symm hx)
  simp only [meanQ, List.sum_cons, List.sum_nil, List.length_cons, List.length_nil]
  push_cast
  field_simp
  ring

theorem two_point_through2 (x1 x2 y1 y2 : ℚ) (hx : x1 ≠ x2) :
    (y2 - y1) / (x2 - x1) * x2 + (y1 - (y2 - y1) / (x2 - x1) * x1) = y2 := by
  have hd2 : x2 - x1 ≠ 0 := sub_ne_zero.mpr (Ne.symm hx)
  field_simp
  ring

/-- C6 as amended: for a sample set whose filtered form is exactly two
points with distinct concentrations and nonzero velocities, the fit is
exact: the fitted slope and intercept are the finite coefficients of the
unique line through the two reciprocal points — deterministic functions
of those points — and that line passes through both of them (zero
residual). -/
theorem c6_two_point_exact (samples : List (ℚ × ℚ)) (S1 v1 S2 v2 : ℚ)
    (hfil : sampleFilter samples = [(S1, v1), (S2, v2)])
    (hS : S1 ≠ S2) (hv1 : v1 ≠ 0) (hv2 : v2 ≠ 0) :
    ∃ r : FitResult, process_kinetics_data samples = some r ∧
      r.slope = FV.fin ((1/v2 - 1/v1) / (1/S2 - 1/S1)) ∧
      r.intercept = FV.fin (1/v1 - (1/v2 - 1/v1) / (1/S2 - 1/S1) * (1/S1)) ∧
      (1/v2 - 1/v1) / (1/S2 - 1/S1) * (1/S1) +
        (1/v1 - (1/v2 - 1/v1) / (1/S2 - 1/S1) * (1/S1)) = 1/v1 ∧
      (1/v2 - 1/v1) / (1/S2 - 1/S1) * (1/S2) +
        (1/v1 - (1/v2 - 1/v1) / (1/S2 - 1/S1) * (1/S1)) = 1/v2 := by
  have hmem1 : (S1, v1) ∈ sampleFilter samples := by
    rw [hfil]
    exact List.mem_cons_self _ _
  have hmem2 : (S2, v2) ∈ sampleFilter samples := by
    rw [hfil]
    exact List.mem_cons.mpr (Or.inr (List.mem_cons_self _ _))
  have hS1 : S1 ≠ 0 := by simpa using (List.mem_filter.mp hmem1).2
  have hS2 : S2 ≠ 0 := by simpa using (List.mem_filter.mp hmem2).2
  have hx : (1:ℚ)/S1 ≠ 1/S2 := by
    intro h
    rw [one_div, one_div] at h
    exact hS (inv_injective h)
  have hxs : reciprocalsS [(S1, v1), (S2, v2)] = [1/S1, 1/S2] := by
    simp [reciprocalsS]
  have hys : reciprocalsV [(S1, v1), (S2, v2)] =
      List.map FV.fin [1/v1, 1/v2] := by
    simp [reciprocalsV, FV.div_fin_fin _ _ hv1, FV.div_fin_fin _ _ hv2]
  have hg1 : ¬(([(1:ℚ)/S1, 1/S2]).length = 0 ∨
      ([(1:ℚ)/v1, 1/v2]).length = 0) := by simp
  have hg2 : ¬(1 < ([(1:ℚ)/S1, 1/S2]).length ∧
      allEqHead [(1:ℚ)/S1, 1/S2] = true) := by
    simp only [allEqHead, List.all_cons, List.all_nil, Bool.and_true,
      decide_eq_true_eq]
    intro hcon
    exact hx hcon.2
  have hlr := linregress_fin [(1:ℚ)/S1, 1/S2] [(1:ℚ)/v1, 1/v2] rfl hg1 hg2
  have hBv : ssxmQ [(1:ℚ)/S1, 1/S2] = (1/S1 - 1/S2) ^ 2 / 4 := by
    simp only [ssxmQ, meanQ, List.sum_cons, List.sum_nil, List.length_cons,
      List.length_nil, List.map_cons, List.map_nil]
    push_cast
    ring
  have hAv : ssxymQ [(1:ℚ)/S1, 1/S2] [(1:ℚ)/v1, 1/v2] =
      (1/S1 - 1/S2) * (1/v1 - 1/v2) / 4 := by
    simp only [ssxymQ, meanQ, List.sum_cons, List.sum_nil, List.length_cons,
      List.length_nil, List.zipWith_cons_cons, List.zipWith_nil_left,
      List.zipWith_nil_right]
    push_cast
    ring
  have hd : (1:ℚ)/S1 - 1/S2 ≠ 0 := sub_ne_zero.mpr hx
  have hB0 : ssxmQ [(1:ℚ)/S1, 1/S2] ≠ 0 := by
    rw [hBv]
    exact div_ne_zero (pow_ne_zero 2 hd) (by norm_num)
  have hslope : FV.div (FV.fin (ssxymQ [(1:ℚ)/S1, 1/S2] [(1:ℚ)/v1, 1/v2]))
      (FV.fin (ssxmQ [(1:ℚ)/S1, 1/S2])) =
      FV.fin ((1/v2 - 1/v1) / (1/S2 - 1/S1)) := by
    rw [FV.div_fin_fin _ _ hB0, hAv, hBv]
    rw [two_point_slope _ _ _ _ hx]
  unfold process_kinetics_data
  rw [hfil, hxs, hys, hlr]
  refine ⟨_, rfl, ?_, ?_, ?_, two_point_through2 _ _ _ _ hx⟩
  · exact hslope
  · show FV.sub (FV.fin (meanQ [1/v1, 1/v2]))
      (FV.mul (FV.div (FV.fin (ssxymQ [(1:ℚ)/S1, 1/S2] [(1:ℚ)/v1, 1/v2]))
        (FV.fin (ssxmQ [(1:ℚ)/S1, 1/S2]))) (FV.fin (meanQ [1/S1, 1/S2]))) =
      FV.fin (1/v1 - (1/v2 - 1/v1) / (1/S2 - 1/S1) * (1/S1))
    rw [hslope]
    simp only [FV.mul_fin_fin, FV.sub_fin_fin, FV.fin.injEq]
    exact two_point_intercept _ _ _ _ hx
  · ring

/-- Witness for the amended C6 at the samples `[(1, 1), (2, 4)]`
(reciprocal points `(1, 1)` and `(1/2, 1/4)`). -/
theorem c6_two_point_exact_witness :
    ∃ r : FitResult, process_kinetics_data [((1:ℚ), (1:ℚ)), (2, 4)] = some r ∧
      r.slope = FV.fin ((1/(4:ℚ) - 1/1) / (1/(2:ℚ) - 1/1)) ∧
      r.intercept = FV.fin (1/(1:ℚ) - (1/(4:ℚ) - 1/1) / (1/(2:ℚ) - 1/1) * (1/1)) ∧
      (1/(4:ℚ) - 1/1) / (1/(2:ℚ) - 1/1) * (1/1) +
        (1/(1:ℚ) - (1/(4:ℚ) - 1/1) / (1/(2:ℚ) - 1/1) * (1/1)) = 1/1 ∧
      (1/(4:ℚ) - 1/1) / (1/(2:ℚ) - 1/1) * (1/2) +
        (1/(1:ℚ) - (1/(4:ℚ) - 1/1) / (1/(2:ℚ) - 1/1) * (1/1)) = 1/4 :=
  c6_two_point_exact [((1:ℚ), (1:ℚ)), (2, 4)] 1 1 2 4 (by decide)
    (by norm_num) one_ne_zero (by norm_num)
